import Mathlib

/-!
Verification development for the seller synchronisation script (seller.py).
The script reconciles a supplier watch feed with a marketplace catalog:
it fetches catalog offer ids through a paginated API, builds stock and
price update lists from the feed, and submits them in chunks.

The pure reconciliation and batching logic is embedded below as Lean
functions; fallible operations (integer parsing of quantities, chunking
with a zero step, the fuel-limited pagination loop) return Option/Except.
-/

namespace Seller

/-- One row of the supplier feed (`watch_remnants`): the consumed fields are
the code (column `Код`), the quantity (column `Количество`) and the raw
price text (column `Цена`), all read as strings. -/
structure Watch where
  code : String
  quantity : String
  price : String
deriving DecidableEq

/-- A stock update record `{"offer_id": ..., "stock": ...}` built by
`create_stocks`. -/
structure Stock where
  offer_id : String
  stock : Int
deriving DecidableEq

/-- A price update record built by `create_prices`, with its five fields. -/
structure Price where
  auto_action_enabled : String
  currency_code : String
  offer_id : String
  old_price : String
  price : String
deriving DecidableEq

/-- Big-endian value of a list of decimal digit characters, as computed by
folding: `digitsVal ['4','2'] = 42`. -/
def digitsVal (cs : List Char) : Nat :=
  cs.foldl (fun a c => 10 * a + (c.toNat - 48)) 0

/-- Parse a nonempty all-digit character list; `none` otherwise. -/
def digitsToNat (cs : List Char) : Option Nat :=
  if cs ≠ [] ∧ cs.all Char.isDigit then some (digitsVal cs) else none

/-- Drop leading and trailing whitespace characters. -/
def pyTrim (cs : List Char) : List Char :=
  ((cs.dropWhile Char.isWhitespace).reverse.dropWhile Char.isWhitespace).reverse

/-- Model of Python `int(s)` on a string: surrounding whitespace is
ignored, an optional sign precedes a nonempty run of decimal digits;
any other shape raises `ValueError`, modelled as `none`. -/
def pyInt (s : String) : Option Int :=
  match pyTrim s.toList with
  | [] => none
  | c :: rest =>
    if c = '+' then (digitsToNat rest).map (fun n => (n : Int))
    else if c = '-' then (digitsToNat rest).map (fun n => -(n : Int))
    else (digitsToNat (c :: rest)).map (fun n => (n : Int))

/-- The quantity-to-stock mapping inside `create_stocks` (seller.py lines
208-214): `">10"` gives 100, `"1"` gives 0, anything else is passed to
`int(...)`; a parse failure propagates (`none`). -/
def stock_of_count (count : String) : Option Int :=
  if count = ">10" then some 100
  else if count = "1" then some 0
  else pyInt count

/-- The feed pass of `create_stocks` (seller.py lines 206-216) with the
mutable `offer_ids` list made explicit: returns the stock updates built
from matched feed rows, in feed order, together with the final state of
the `offer_ids` list (`list.remove` erases the first occurrence). -/
def create_stocks_go : List Watch → List String → Option (List Stock × List String)
  | [], ids => some ([], ids)
  | w :: ws, ids =>
    if w.code ∈ ids then
      match stock_of_count w.quantity with
      | none => none
      | some st =>
        match create_stocks_go ws (ids.erase w.code) with
        | none => none
        | some (rest, ids2) => some (⟨w.code, st⟩ :: rest, ids2)
    else create_stocks_go ws ids

/-- `create_stocks(watch_remnants, offer_ids)` (seller.py lines 184-220):
the feed pass followed by a zero-stock entry for every offer id left in
the consumed working list. -/
def create_stocks (watch_remnants : List Watch) (offer_ids : List String) :
    Option (List Stock) :=
  (create_stocks_go watch_remnants offer_ids).map
    (fun p => p.1 ++ p.2.map (fun id => ⟨id, 0⟩))

/-- `price_conversion(price)` (seller.py line 275): keep the part of the
string before the first `.` (Python `price.split(".")[0]`) and delete
every character that is not an ASCII digit (`re.sub("[^0-9]", "", ...)`). -/
def price_conversion (price : String) : String :=
  String.mk ((price.toList.takeWhile (fun c => c ≠ '.')).filter Char.isDigit)

/-- The price record built for one matched feed row inside `create_prices`
(seller.py lines 246-252). -/
def mkPrice (w : Watch) : Price :=
  ⟨"UNKNOWN", "RUB", w.code, "0", price_conversion w.price⟩

/-- `create_prices(watch_remnants, offer_ids)` (seller.py lines 223-254):
one price record per feed row whose code occurs in `offer_ids`. -/
def create_prices : List Watch → List String → List Price
  | [], _ => []
  | w :: ws, ids =>
    if w.code ∈ ids then mkPrice w :: create_prices ws ids
    else create_prices ws ids

/-- `create_prices` in the same explicit-state style as `create_stocks_go`:
the second component is the state of the caller's `offer_ids` list after
the call (the loop body of `create_prices` performs no mutating call on
`offer_ids`, so each iteration passes the list through untouched). -/
def create_prices_st : List Watch → List String → List Price × List String
  | [], ids => ([], ids)
  | w :: ws, ids =>
    if w.code ∈ ids then
      let p := create_prices_st ws ids
      (mkPrice w :: p.1, p.2)
    else create_prices_st ws ids

/-- One product returned by the paginated product-list endpoint; only its
`offer_id` is consumed. -/
structure Product where
  offer_id : String
deriving DecidableEq

/-- One response of the paginated product-list endpoint: `items`, the
reported `total`, and the next cursor `last_id`. -/
structure Page where
  items : List Product
  total : Nat
  last_id : String

/-- The pagination loop of `get_offer_ids` (seller.py lines 69-77): the
server is modelled as a function from the cursor to a page; `fuel` bounds
the number of iterations the model unfolds, `none` meaning the loop has
not terminated within that many iterations. The loop extends the
accumulator with the page items and stops exactly when the reported
`total` equals the accumulated length. -/
def get_offer_ids_go (server : String → Page) : Nat → String → List Product → Option (List Product)
  | 0, _, _ => none
  | fuel + 1, cursor, acc =>
    let page := server cursor
    let acc2 := acc ++ page.items
    if page.total = acc2.length then some acc2
    else get_offer_ids_go server fuel page.last_id acc2

/-- `get_offer_ids` (seller.py lines 51-81): run the pagination loop from
the empty cursor and empty accumulator, then project the offer ids. -/
def get_offer_ids (server : String → Page) (fuel : Nat) : Option (List String) :=
  (get_offer_ids_go server fuel "" []).map (fun ps => ps.map Product.offer_id)

/-- A server whose every page is empty but reports `total = 1`: the stalled
cursor scenario. -/
def stalledServer : String → Page := fun _ => ⟨[], 1, ""⟩

/-- A server whose first page already holds the single product it reports:
the loop terminates on it after one request. -/
def oneProductServer : String → Page := fun _ => ⟨[⟨"A123"⟩], 1, "end"⟩

/-- The error raised by `divide` when consumed with a zero step: Python
`range(0, len(lst), 0)` raises `ValueError`, the spec's
`InvalidArgumentError`. -/
inductive DivideError where
  | invalidArgument
deriving DecidableEq

/-- The chunking loop of `divide` for a positive step `n` (seller.py lines
297-298): slices `lst[i : i + n]` for `i = 0, n, 2n, ...`; `fuel` is an
upper bound on the number of slices, instantiated with `lst.length` which
suffices whenever `n ≥ 1`. -/
def divideGo (n : Nat) {α : Type} : Nat → List α → List (List α)
  | 0, _ => []
  | _ + 1, [] => []
  | fuel + 1, a :: l => ((a :: l).take n) :: divideGo n fuel ((a :: l).drop n)

/-- `list(divide(lst, n))` for an arbitrary integer step `n`: a zero step
makes `range` raise `ValueError`; a negative step makes
`range(0, len(lst), n)` empty, so the generator yields nothing; a
positive step yields the contiguous slices. -/
def divideZ {α : Type} (lst : List α) (n : Int) : Except DivideError (List (List α)) :=
  if n = 0 then Except.error DivideError.invalidArgument
  else if n < 0 then Except.ok []
  else Except.ok (divideGo n.toNat lst.length lst)

/-! ## General helper lemmas -/

theorem string_mk_eq_empty_iff (l : List Char) : String.mk l = "" ↔ l = [] := by
  constructor
  · intro h
    have := congrArg String.data h
    simpa using this
  · intro h
    subst h
    rfl

theorem divideGo_nil {α : Type} (n fuel : Nat) : divideGo n fuel ([] : List α) = [] := by
  cases fuel <;> rfl

/-- Specification of the chunking loop: with enough fuel and a positive
chunk size, the chunks concatenate back to the input, every chunk is
nonempty of length at most `n`, and every chunk but the last has length
exactly `n`. -/
theorem divideGo_spec {α : Type} (n : Nat) (hn : 1 ≤ n) :
    ∀ (fuel : Nat) (l : List α), l.length ≤ fuel →
      (divideGo n fuel l).flatten = l ∧
      (∀ c ∈ divideGo n fuel l, c ≠ [] ∧ c.length ≤ n) ∧
      (∀ c ∈ (divideGo n fuel l).dropLast, c.length = n) := by
  intro fuel
  induction fuel with
  | zero =>
    intro l hl
    have : l = [] := List.eq_nil_of_length_eq_zero (Nat.le_zero.mp hl)
    subst this
    simp [divideGo]
  | succ fuel ih =>
    intro l hl
    cases l with
    | nil => simp [divideGo]
    | cons a t =>
      have hdrop : ((a :: t).drop n).length ≤ fuel := by
        rw [List.length_drop]
        simp only [List.length_cons] at hl ⊢
        omega
      obtain ⟨hj, hc, hd⟩ := ih _ hdrop
      refine ⟨?_, ?_, ?_⟩
      · simp only [divideGo, List.flatten_cons, hj, List.take_append_drop]
      · intro c hcmem
        simp only [divideGo, List.mem_cons] at hcmem
        rcases hcmem with h | h
        · subst h
          constructor
          · simp only [ne_eq, List.take_eq_nil_iff, List.cons_ne_nil, or_false]
            omega
          · simp only [List.length_take]
            exact Nat.min_le_left n _
        · exact hc c h
      · intro c hcmem
        simp only [divideGo] at hcmem
        rcases hrest : divideGo n fuel ((a :: t).drop n) with _ | ⟨r, rs⟩
        · rw [hrest] at hcmem
          simp at hcmem
        · rw [hrest] at hcmem
          rw [List.dropLast_cons₂] at hcmem
          rcases List.mem_cons.mp hcmem with h | h
          · subst h
            have hne : (a :: t).drop n ≠ [] := by
              intro hnil
              rw [hnil, divideGo_nil] at hrest
              exact List.cons_ne_nil _ _ hrest.symm
            have hlt : n < (a :: t).length := by
              by_contra hge
              exact hne (List.drop_eq_nil_of_le (Nat.le_of_not_lt hge))
            simp only [List.length_take, List.length_cons] at *
            omega
          · rw [← hrest] at h
            exact hd c h

/-! ## Helper lemmas on the model of Python int() -/

theorem isDigit_not_isWhitespace {c : Char} (h : c.isDigit = true) :
    c.isWhitespace = false := by
  cases hw : c.isWhitespace with
  | false => rfl
  | true =>
    exfalso
    unfold Char.isWhitespace at hw
    simp only [Bool.or_eq_true, decide_eq_true_eq] at hw
    rcases hw with ((he | he) | he) | he <;> (subst he; exact absurd h (by decide))

theorem dropWhile_whitespace_of_all_digits {cs : List Char}
    (h : cs.all Char.isDigit = true) : cs.dropWhile Char.isWhitespace = cs := by
  cases cs with
  | nil => rfl
  | cons c t =>
    have hc : c.isDigit = true := by
      simp only [List.all_cons, Bool.and_eq_true] at h
      exact h.1
    simp [List.dropWhile_cons, isDigit_not_isWhitespace hc]

theorem pyTrim_of_all_digits {cs : List Char} (h : cs.all Char.isDigit = true) :
    pyTrim cs = cs := by
  unfold pyTrim
  rw [dropWhile_whitespace_of_all_digits h]
  rw [dropWhile_whitespace_of_all_digits (by simpa using h)]
  exact List.reverse_reverse cs

/-- The folding in `digitsVal` computes the standard base-10 value of the
digit list (little-endian `Nat.ofDigits` of the reversed digits). -/
theorem foldl_digits_eq_ofDigits (cs : List Char) : ∀ acc : Nat,
    cs.foldl (fun a c => 10 * a + (c.toNat - 48)) acc =
      acc * 10 ^ cs.length + Nat.ofDigits 10 ((cs.map (fun c => c.toNat - 48)).reverse) := by
  induction cs with
  | nil =>
    intro acc
    simp [Nat.ofDigits]
  | cons c t ih =>
    intro acc
    simp only [List.foldl_cons, List.map_cons, List.reverse_cons, List.length_cons]
    rw [ih (10 * acc + (c.toNat - 48)), Nat.ofDigits_append]
    simp only [Nat.ofDigits_singleton, List.length_reverse, List.length_map]
    ring

/-- On a nonempty all-digit string, the model of `int()` returns the
base-10 value of the digits. -/
theorem pyInt_digits (s : String) (h1 : s.toList ≠ []) (h2 : s.toList.all Char.isDigit = true) :
    pyInt s = some ((Nat.ofDigits 10 ((s.toList.map (fun c => c.toNat - 48)).reverse) : Nat) : Int) := by
  rw [pyInt, pyTrim_of_all_digits h2]
  cases hcs : s.toList with
  | nil => exact absurd hcs h1
  | cons c t =>
    rw [hcs] at h2
    simp only [List.all_cons, Bool.and_eq_true] at h2
    have hplus : ¬ c = '+' := by
      intro he
      rw [he] at h2
      simp at h2
    have hminus : ¬ c = '-' := by
      intro he
      rw [he] at h2
      simp at h2
    simp only [if_neg hplus, if_neg hminus]
    rw [digitsToNat, if_pos ⟨List.cons_ne_nil c t, by simp [h2.1, h2.2]⟩]
    rw [digitsVal, foldl_digits_eq_ofDigits (c :: t) 0]
    simp [hcs]

/-! ## Helper lemmas on the stock reconciliation pass -/

/-- The final working list is a sublist of the initial one: `list.remove`
only erases elements and keeps the relative order. -/
theorem create_stocks_go_sublist :
    ∀ (f : List Watch) (ids s1 w : _), create_stocks_go f ids = some (s1, w) → w.Sublist ids := by
  intro f
  induction f with
  | nil =>
    intro ids s1 w h
    simp only [create_stocks_go, Option.some.injEq, Prod.mk.injEq] at h
    rw [← h.2]
  | cons w0 ws ih =>
    intro ids s1 w h
    by_cases hmem : w0.code ∈ ids
    · simp only [create_stocks_go, if_pos hmem] at h
      cases hst : stock_of_count w0.quantity with
      | none => rw [hst] at h; exact absurd h (by simp)
      | some st =>
        rw [hst] at h
        cases hgo : create_stocks_go ws (ids.erase w0.code) with
        | none => rw [hgo] at h; exact absurd h (by simp)
        | some p =>
          obtain ⟨rest, ids2⟩ := p
          rw [hgo] at h
          simp only [Option.some.injEq, Prod.mk.injEq] at h
          rw [← h.2]
          exact (ih _ _ _ hgo).trans (List.erase_sublist _ _)
    · simp only [create_stocks_go, if_neg hmem] at h
      exact ih _ _ _ h

/-- The initial working list is a permutation of the matched codes
followed by the final working list. -/
theorem create_stocks_go_perm :
    ∀ (f : List Watch) (ids s1 w : _), create_stocks_go f ids = some (s1, w) →
      ids.Perm (s1.map Stock.offer_id ++ w) := by
  intro f
  induction f with
  | nil =>
    intro ids s1 w h
    simp only [create_stocks_go, Option.some.injEq, Prod.mk.injEq] at h
    rw [← h.1, ← h.2]
    simp
  | cons w0 ws ih =>
    intro ids s1 w h
    by_cases hmem : w0.code ∈ ids
    · simp only [create_stocks_go, if_pos hmem] at h
      cases hst : stock_of_count w0.quantity with
      | none => rw [hst] at h; exact absurd h (by simp)
      | some st =>
        rw [hst] at h
        cases hgo : create_stocks_go ws (ids.erase w0.code) with
        | none => rw [hgo] at h; exact absurd h (by simp)
        | some p =>
          obtain ⟨rest, ids2⟩ := p
          rw [hgo] at h
          simp only [Option.some.injEq, Prod.mk.injEq] at h
          rw [← h.1, ← h.2]
          refine List.Perm.trans (List.perm_cons_erase hmem) ?_
          refine List.Perm.trans (List.Perm.cons _ (ih _ _ _ hgo)) ?_
          simp
    · simp only [create_stocks_go, if_neg hmem] at h
      exact ih _ _ _ h

/-- An offer id that no feed row carries survives the feed pass. -/
theorem create_stocks_go_not_covered :
    ∀ (f : List Watch) (ids s1 w : _) (x : String), create_stocks_go f ids = some (s1, w) →
      x ∈ ids → x ∉ f.map Watch.code → x ∈ w := by
  intro f
  induction f with
  | nil =>
    intro ids s1 w x h hx _
    simp only [create_stocks_go, Option.some.injEq, Prod.mk.injEq] at h
    rw [← h.2]
    exact hx
  | cons w0 ws ih =>
    intro ids s1 w x h hx hnc
    simp only [List.map_cons, List.mem_cons, not_or] at hnc
    by_cases hmem : w0.code ∈ ids
    · simp only [create_stocks_go, if_pos hmem] at h
      cases hst : stock_of_count w0.quantity with
      | none => rw [hst] at h; exact absurd h (by simp)
      | some st =>
        rw [hst] at h
        cases hgo : create_stocks_go ws (ids.erase w0.code) with
        | none => rw [hgo] at h; exact absurd h (by simp)
        | some p =>
          obtain ⟨rest, ids2⟩ := p
          rw [hgo] at h
          simp only [Option.some.injEq, Prod.mk.injEq] at h
          rw [← h.2]
          have hx2 : x ∈ ids.erase w0.code := (List.mem_erase_of_ne hnc.1).mpr hx
          exact ih _ _ _ x hgo hx2 hnc.2
    · simp only [create_stocks_go, if_neg hmem] at h
      exact ih _ _ _ x h hx hnc.2

/-- The matched updates appear in feed order: their codes form a sublist
of the feed codes. -/
theorem create_stocks_go_codes_sublist :
    ∀ (f : List Watch) (ids s1 w : _), create_stocks_go f ids = some (s1, w) →
      (s1.map Stock.offer_id).Sublist (f.map Watch.code) := by
  intro f
  induction f with
  | nil =>
    intro ids s1 w h
    simp only [create_stocks_go, Option.some.injEq, Prod.mk.injEq] at h
    rw [← h.1]
    simp
  | cons w0 ws ih =>
    intro ids s1 w h
    by_cases hmem : w0.code ∈ ids
    · simp only [create_stocks_go, if_pos hmem] at h
      cases hst : stock_of_count w0.quantity with
      | none => rw [hst] at h; exact absurd h (by simp)
      | some st =>
        rw [hst] at h
        cases hgo : create_stocks_go ws (ids.erase w0.code) with
        | none => rw [hgo] at h; exact absurd h (by simp)
        | some p =>
          obtain ⟨rest, ids2⟩ := p
          rw [hgo] at h
          simp only [Option.some.injEq, Prod.mk.injEq] at h
          rw [← h.1]
          simp only [List.map_cons]
          exact (ih _ _ _ hgo).cons₂ _
    · simp only [create_stocks_go, if_neg hmem] at h
      simp only [List.map_cons]
      exact (ih _ _ _ h).cons _

/-- On a duplicate-free working list the final working list is exactly
the initial one restricted to codes not matched by the feed pass, in the
original order. -/
theorem create_stocks_go_remaining_filter :
    ∀ (f : List Watch) (ids s1 w : _), ids.Nodup → create_stocks_go f ids = some (s1, w) →
      w = ids.filter (fun x => decide (x ∉ s1.map Stock.offer_id)) := by
  intro f
  induction f with
  | nil =>
    intro ids s1 w _ h
    simp only [create_stocks_go, Option.some.injEq, Prod.mk.injEq] at h
    rw [← h.1, ← h.2]
    simp
  | cons w0 ws ih =>
    intro ids s1 w hnd h
    by_cases hmem : w0.code ∈ ids
    · simp only [create_stocks_go, if_pos hmem] at h
      cases hst : stock_of_count w0.quantity with
      | none => rw [hst] at h; exact absurd h (by simp)
      | some st =>
        rw [hst] at h
        cases hgo : create_stocks_go ws (ids.erase w0.code) with
        | none => rw [hgo] at h; exact absurd h (by simp)
        | some p =>
          obtain ⟨rest, ids2⟩ := p
          rw [hgo] at h
          simp only [Option.some.injEq, Prod.mk.injEq] at h
          rw [← h.1, ← h.2]
          have hrec := ih _ _ _ (hnd.erase w0.code) hgo
          rw [hrec, hnd.erase_eq_filter w0.code, List.filter_filter]
          apply List.filter_congr
          intro x _
          by_cases h1 : x = w0.code <;>
            by_cases h2 : x ∈ rest.map Stock.offer_id <;>
            simp [h1, h2]
    · simp only [create_stocks_go, if_neg hmem] at h
      exact ih _ _ _ hnd h

/-- On a duplicate-free working list, no feed code is left in the final
working list: a code still present would have been matched (the working
list only shrinks) and then erased for good. -/
theorem create_stocks_go_feed_disjoint :
    ∀ (f : List Watch) (ids s1 w : _), ids.Nodup → create_stocks_go f ids = some (s1, w) →
      ∀ x ∈ f, x.code ∉ w := by
  intro f
  induction f with
  | nil =>
    intro ids s1 w _ _ x hx
    simp at hx
  | cons w0 ws ih =>
    intro ids s1 w hnd h x hx
    by_cases hmem : w0.code ∈ ids
    · simp only [create_stocks_go, if_pos hmem] at h
      cases hst : stock_of_count w0.quantity with
      | none => rw [hst] at h; exact absurd h (by simp)
      | some st =>
        rw [hst] at h
        cases hgo : create_stocks_go ws (ids.erase w0.code) with
        | none => rw [hgo] at h; exact absurd h (by simp)
        | some p =>
          obtain ⟨rest, ids2⟩ := p
          rw [hgo] at h
          simp only [Option.some.injEq, Prod.mk.injEq] at h
          rcases List.mem_cons.mp hx with hx0 | hxs
          · subst hx0
            intro hcw
            rw [← h.2] at hcw
            have hsub := create_stocks_go_sublist ws (ids.erase x.code) rest ids2 hgo
            have hmem2 : x.code ∈ ids.erase x.code := hsub.subset hcw
            exact ((List.Nodup.mem_erase_iff hnd).mp hmem2).1 rfl
          · rw [← h.2]
            exact ih _ _ _ (hnd.erase _) hgo x hxs
    · simp only [create_stocks_go, if_neg hmem] at h
      rcases List.mem_cons.mp hx with hx0 | hxs
      · subst hx0
        intro hcw
        exact hmem ((create_stocks_go_sublist ws ids s1 w h).subset hcw)
      · exact ih _ _ _ hnd h x hxs

/-! ## Helper lemmas on the price pass and pagination -/

theorem create_prices_eq_nil :
    ∀ (f : List Watch) (ids : List String), (∀ x ∈ f, x.code ∉ ids) →
      create_prices f ids = [] := by
  intro f
  induction f with
  | nil => intro ids _; rfl
  | cons w0 ws ih =>
    intro ids hall
    have h0 : w0.code ∉ ids := hall w0 (List.mem_cons_self _ _)
    simp only [create_prices, if_neg h0]
    exact ih ids (fun x hx => hall x (List.mem_cons_of_mem _ hx))

theorem create_prices_eq_filter_map :
    ∀ (f : List Watch) (ids : List String),
      create_prices f ids = (f.filter (fun x => decide (x.code ∈ ids))).map mkPrice := by
  intro f
  induction f with
  | nil => intro ids; rfl
  | cons w0 ws ih =>
    intro ids
    by_cases hmem : w0.code ∈ ids <;>
      simp [create_prices, List.filter_cons, hmem, ih ids]

/-- Whenever the pagination loop yields a result, the reported `total` of
the final page equals the length of the accumulated item list. -/
theorem get_offer_ids_go_total_eq :
    ∀ (fuel : Nat) (server : String → Page) (cursor : String) (acc l : List Product),
      get_offer_ids_go server fuel cursor acc = some l →
      ∃ cur pre, l = pre ++ (server cur).items ∧ (server cur).total = l.length := by
  intro fuel
  induction fuel with
  | zero =>
    intro server cursor acc l h
    exact absurd h (by simp [get_offer_ids_go])
  | succ fuel ih =>
    intro server cursor acc l h
    simp only [get_offer_ids_go] at h
    by_cases hc : (server cursor).total = (acc ++ (server cursor).items).length
    · rw [if_pos hc] at h
      obtain rfl : acc ++ (server cursor).items = l := by simpa using h
      exact ⟨cursor, acc, rfl, hc⟩
    · rw [if_neg hc] at h
      exact ih server _ _ l h

/-- Against a server whose pages are empty with an unreached `total`, the
loop makes no progress: no amount of fuel produces a result. -/
theorem get_offer_ids_stalled :
    ∀ (fuel : Nat) (cursor : String), get_offer_ids_go stalledServer fuel cursor [] = none := by
  intro fuel
  induction fuel with
  | zero => intro cursor; rfl
  | succ fuel ih =>
    intro cursor
    simp only [get_offer_ids_go, stalledServer, List.append_nil, List.length_nil]
    rw [if_neg (by decide)]
    exact ih ""

/-! ## Claim theorems -/

/-- C1: for every feed and duplicate-free catalog on which `create_stocks`
succeeds, the result has exactly one stock update per catalog offer id
(its offer ids are a duplicate-free permutation of the catalog), and every
catalog id not named by any feed row gets a zero-stock update. -/
theorem create_stocks_catalog_complete (f : List Watch) (c : List String) (s : List Stock)
    (hnd : c.Nodup) (h : create_stocks f c = some s) :
    s.length = c.length ∧ (s.map Stock.offer_id).Perm c ∧ (s.map Stock.offer_id).Nodup ∧
    ∀ id ∈ c, id ∉ f.map Watch.code → (⟨id, 0⟩ : Stock) ∈ s := by
  rw [create_stocks] at h
  cases hgo : create_stocks_go f c with
  | none => rw [hgo] at h; exact absurd h (by simp)
  | some p =>
    obtain ⟨s1, w⟩ := p
    rw [hgo] at h
    simp only [Option.map_some', Option.some.injEq] at h
    have hmap : s.map Stock.offer_id = s1.map Stock.offer_id ++ w := by
      rw [← h, List.map_append, List.map_map]
      congr 1
      show List.map (fun x => x) w = w
      exact List.map_id' w
    have hperm : (s.map Stock.offer_id).Perm c := by
      rw [hmap]
      exact (create_stocks_go_perm f c s1 w hgo).symm
    refine ⟨?_, hperm, (hperm.nodup_iff).mpr hnd, ?_⟩
    · have := hperm.length_eq
      simpa using this
    · intro id hid hnc
      have hw : id ∈ w := create_stocks_go_not_covered f c s1 w id hgo hid hnc
      rw [← h]
      exact List.mem_append.mpr (Or.inr (List.mem_map.mpr ⟨id, hw, rfl⟩))

/-- Witness for C1 at the feed `[{"Код": "A", "Количество": ">10"}]` and
catalog `["A", "B"]`, whose stock list is `[{A, 100}, {B, 0}]`. -/
theorem create_stocks_catalog_complete_witness :
    ([⟨"A", 100⟩, ⟨"B", 0⟩] : List Stock).length = (["A", "B"] : List String).length ∧
    (([⟨"A", 100⟩, ⟨"B", 0⟩] : List Stock).map Stock.offer_id).Perm ["A", "B"] ∧
    (([⟨"A", 100⟩, ⟨"B", 0⟩] : List Stock).map Stock.offer_id).Nodup ∧
    (⟨"B", 0⟩ : Stock) ∈ ([⟨"A", 100⟩, ⟨"B", 0⟩] : List Stock) := by
  have h := create_stocks_catalog_complete [⟨"A", ">10", "9"⟩] ["A", "B"]
    [⟨"A", 100⟩, ⟨"B", 0⟩] (by decide) (by decide)
  exact ⟨h.1, h.2.1, h.2.2.1, h.2.2.2 "B" (by decide) (by decide)⟩

/-- C2: the quantity mapping of `create_stocks`: `">10"` gives stock 100,
`"1"` gives 0, a nonempty all-digit quantity gives its base-10 value, a
quantity the integer parser rejects propagates the failure; and for a feed
row whose code is in the working list, `create_stocks_go` emits exactly
this stock value (or fails when the mapping fails). -/
theorem create_stocks_quantity_mapping :
    stock_of_count ">10" = some 100 ∧
    stock_of_count "1" = some 0 ∧
    (∀ s : String, s.toList ≠ [] → s.toList.all Char.isDigit = true → s ≠ "1" →
      stock_of_count s =
        some ((Nat.ofDigits 10 ((s.toList.map (fun c => c.toNat - 48)).reverse) : Nat) : Int)) ∧
    (∀ s : String, pyInt s = none → s ≠ ">10" → s ≠ "1" → stock_of_count s = none) ∧
    (∀ (w : Watch) (ids : List String), w.code ∈ ids →
      create_stocks_go [w] ids =
        (stock_of_count w.quantity).map (fun st => ([⟨w.code, st⟩], ids.erase w.code))) := by
  refine ⟨rfl, rfl, ?_, ?_, ?_⟩
  · intro s h1 h2 hne1
    have hne10 : ¬ s = ">10" := by
      intro he
      subst he
      exact absurd h2 (by decide)
    rw [stock_of_count, if_neg hne10, if_neg hne1]
    exact pyInt_digits s h1 h2
  · intro s hpy hne10 hne1
    rw [stock_of_count, if_neg hne10, if_neg hne1, hpy]
  · intro w ids hmem
    rcases hst : stock_of_count w.quantity with _ | st <;>
      simp [create_stocks_go, hst, hmem]

/-- Witness for C2: the numeric quantity `"7"` maps to stock 7. -/
theorem create_stocks_quantity_mapping_witness :
    stock_of_count "7" = some 7 := by
  have h := create_stocks_quantity_mapping.2.2.1 "7" (by decide) (by decide) (by decide)
  exact h.trans (by decide)

/-- Counterexample for C3: on an input whose stripped integer part is
empty, `price_conversion` does not fail; it returns the empty string. -/
theorem price_conversion_no_failure :
    price_conversion "руб." = "" := rfl

/-- C3 (amended): `price_conversion` keeps the part before the decimal
point and strips every non-digit, as on the two spec examples; its output
is all digits and a subsequence of the pre-point part; and it returns the
empty string, raising no error, exactly when the pre-point part holds no
digit. -/
theorem price_conversion_correct :
    price_conversion "5'990.00 руб." = "5990" ∧
    price_conversion "199 руб." = "199" ∧
    (∀ s : String, price_conversion s = "" ↔
      ∀ c ∈ s.toList.takeWhile (fun c => c ≠ '.'), ¬ c.isDigit) ∧
    (∀ s : String, (price_conversion s).toList.all Char.isDigit ∧
      (price_conversion s).toList.Sublist (s.toList.takeWhile (fun c => c ≠ '.'))) := by
  refine ⟨by decide, by decide, ?_, ?_⟩
  · intro s
    simp only [price_conversion, string_mk_eq_empty_iff, List.filter_eq_nil_iff]
  · intro s
    constructor
    · simp only [price_conversion, String.toList, List.all_eq_true]
      intro c hc
      exact (List.mem_filter.mp hc).2
    · simp only [price_conversion, String.toList]
      exact List.filter_sublist _

/-- Witness for C3 at the digit-free input `"abc"`. -/
theorem price_conversion_correct_witness :
    price_conversion "abc" = "" :=
  (price_conversion_correct.2.2.1 "abc").mpr (by decide)

/-- Counterexample for C4: against a stalled server (empty pages,
`total = 1`) the loop raises nothing and is still running after 100
pages — there is no error exit in the code. -/
theorem get_offer_ids_stalled_no_error :
    get_offer_ids stalledServer 100 = none := rfl

/-- C4 (amended): the pagination loop terminates exactly when the number
of accumulated items equals the reported `total` (any produced result
satisfies that equation at its final page); and when a page returns zero
new items while the total has not been reached, the loop never
terminates — no `ApiError` is raised, it loops forever. -/
theorem get_offer_ids_termination_behavior :
    (∀ (server : String → Page) (fuel : Nat) (l : List Product),
      get_offer_ids_go server fuel "" [] = some l →
      ∃ cur pre, l = pre ++ (server cur).items ∧ (server cur).total = l.length) ∧
    (∀ fuel : Nat, get_offer_ids stalledServer fuel = none) := by
  constructor
  · intro server fuel l h
    exact get_offer_ids_go_total_eq fuel server "" [] l h
  · intro fuel
    rw [get_offer_ids, get_offer_ids_stalled fuel ""]
    rfl

/-- Witness for C4: a one-page server terminates with `total` equal to the
accumulated length, and the stalled server yields nothing within 3 pages. -/
theorem get_offer_ids_termination_behavior_witness :
    (∃ cur pre, ([⟨"A123"⟩] : List Product) = pre ++ (oneProductServer cur).items ∧
      (oneProductServer cur).total = ([⟨"A123"⟩] : List Product).length) ∧
    get_offer_ids stalledServer 3 = none :=
  ⟨get_offer_ids_termination_behavior.1 oneProductServer 1 [⟨"A123"⟩] (by decide),
    get_offer_ids_termination_behavior.2 3⟩

/-- C5: for every list and every chunk size at least 1, `divide` yields
contiguous slices that concatenate back to the input, each nonempty of
length at most the size, all but the last of length exactly the size; and
`divide([1,2,3,4,5], 2)` is `[[1,2],[3,4],[5]]`. -/
theorem divide_chunks_correct {α : Type} (lst : List α) (n : Int) (hn : 1 ≤ n) :
    (∃ cs, divideZ lst n = Except.ok cs ∧ cs.flatten = lst ∧
      (∀ c ∈ cs, c ≠ [] ∧ c.length ≤ n.toNat) ∧
      (∀ c ∈ cs.dropLast, c.length = n.toNat)) ∧
    divideZ ([1, 2, 3, 4, 5] : List Int) 2 = Except.ok [[1, 2], [3, 4], [5]] := by
  constructor
  · have h0 : ¬ n = 0 := by omega
    have h1 : ¬ n < 0 := by omega
    have hn1 : 1 ≤ n.toNat := by omega
    refine ⟨divideGo n.toNat lst.length lst, ?_, ?_⟩
    · simp [divideZ, h0, h1]
    · exact divideGo_spec n.toNat hn1 lst.length lst (Nat.le_refl _)
  · rfl

/-- Witness for C5: the spec example itself, at size 2. -/
theorem divide_chunks_correct_witness :
    divideZ ([1, 2, 3, 4, 5] : List Int) 2 = Except.ok [[1, 2], [3, 4], [5]] :=
  (divide_chunks_correct ([1, 2, 3, 4, 5] : List Int) 2 (by decide)).2

/-- Counterexample for C6: at the negative size `-1`, `divide` raises no
error; it returns an empty chunk list (`range(0, len, -1)` is empty). -/
theorem divideZ_negative_returns :
    divideZ ([1, 2] : List Int) (-1) = Except.ok [] := rfl

/-- C6 (amended): `divide` fails with `InvalidArgumentError` exactly at
size 0; at a negative size it yields no chunks and raises nothing. -/
theorem divide_nonpositive {α : Type} (lst : List α) (n : Int) :
    divideZ lst 0 = Except.error DivideError.invalidArgument ∧
    (n < 0 → divideZ lst n = Except.ok []) := by
  constructor
  · rfl
  · intro hneg
    have h0 : ¬ n = 0 := by omega
    simp [divideZ, h0, hneg]

/-- Witness for C6 at the list `[3]`, sizes 0 and -2. -/
theorem divide_nonpositive_witness :
    divideZ ([3] : List Int) 0 = Except.error DivideError.invalidArgument ∧
    divideZ ([3] : List Int) (-2) = Except.ok [] :=
  ⟨(divide_nonpositive ([3] : List Int) (-2)).1,
    (divide_nonpositive ([3] : List Int) (-2)).2 (by decide)⟩

/-- C7: the list `create_stocks` returns is the feed-matched updates
first — their codes in feed order (a sublist of the feed codes) — followed
by zero-stock updates for the remaining catalog ids in original catalog
order (the final working list is a sublist of the catalog and, for a
duplicate-free catalog, exactly the catalog filtered to unmatched ids). -/
theorem create_stocks_output_order (f : List Watch) (c : List String) (s1 : List Stock)
    (w : List String) (h : create_stocks_go f c = some (s1, w)) :
    create_stocks f c = some (s1 ++ w.map (fun id => ⟨id, 0⟩)) ∧
    (s1.map Stock.offer_id).Sublist (f.map Watch.code) ∧
    w.Sublist c ∧
    (c.Nodup → w = c.filter (fun x => decide (x ∉ s1.map Stock.offer_id))) := by
  refine ⟨?_, create_stocks_go_codes_sublist f c s1 w h, create_stocks_go_sublist f c s1 w h,
    fun hnd => create_stocks_go_remaining_filter f c s1 w hnd h⟩
  rw [create_stocks, h]
  rfl

/-- Witness for C7 at the feed `[{"Код": "B1", "Количество": "5"}]` and
catalog `["A1", "B1"]`. -/
theorem create_stocks_output_order_witness :
    create_stocks [⟨"B1", "5", "x"⟩] ["A1", "B1"] =
      some ([⟨"B1", 5⟩] ++ (["A1"] : List String).map (fun id => ⟨id, 0⟩)) ∧
    (([⟨"B1", 5⟩] : List Stock).map Stock.offer_id).Sublist
      (([⟨"B1", "5", "x"⟩] : List Watch).map Watch.code) ∧
    (["A1"] : List String).Sublist ["A1", "B1"] ∧
    ["A1"] = (["A1", "B1"] : List String).filter
      (fun x => decide (x ∉ ([⟨"B1", 5⟩] : List Stock).map Stock.offer_id)) := by
  have h := create_stocks_output_order [⟨"B1", "5", "x"⟩] ["A1", "B1"] [⟨"B1", 5⟩] ["A1"]
    (by decide)
  exact ⟨h.1, h.2.1, h.2.2.1, h.2.2.2 (by decide)⟩

/-- C8: `create_prices` emits one update exactly per feed row whose code
is in the offer-id list (filter-then-map, no synthesis for missing
codes), and every emitted update has currency `"RUB"`, old price `"0"`,
auto action `"UNKNOWN"`, and the normalised price of its feed row. -/
theorem create_prices_feed_matched (f : List Watch) (ids : List String) :
    create_prices f ids = (f.filter (fun x => decide (x.code ∈ ids))).map mkPrice ∧
    ∀ p ∈ create_prices f ids, p.currency_code = "RUB" ∧ p.old_price = "0" ∧
      p.auto_action_enabled = "UNKNOWN" ∧
      ∃ x ∈ f, x.code ∈ ids ∧ p.offer_id = x.code ∧ p.price = price_conversion x.price := by
  refine ⟨create_prices_eq_filter_map f ids, ?_⟩
  intro p hp
  rw [create_prices_eq_filter_map f ids] at hp
  obtain ⟨x, hxf, rfl⟩ := List.mem_map.mp hp
  obtain ⟨hxf2, hxd⟩ := List.mem_filter.mp hxf
  exact ⟨rfl, rfl, rfl, x, hxf2, of_decide_eq_true hxd, rfl, rfl⟩

/-- Witness for C8 at the feed `[{"Код": "A", "Цена": "5.00"}]` and
offer-id list `["A"]`. -/
theorem create_prices_feed_matched_witness :
    (mkPrice ⟨"A", "1", "5.00"⟩).currency_code = "RUB" ∧
    (mkPrice ⟨"A", "1", "5.00"⟩).old_price = "0" ∧
    (mkPrice ⟨"A", "1", "5.00"⟩).auto_action_enabled = "UNKNOWN" ∧
    ∃ x ∈ ([⟨"A", "1", "5.00"⟩] : List Watch), x.code ∈ (["A"] : List String) ∧
      (mkPrice ⟨"A", "1", "5.00"⟩).offer_id = x.code ∧
      (mkPrice ⟨"A", "1", "5.00"⟩).price = price_conversion x.price :=
  (create_prices_feed_matched [⟨"A", "1", "5.00"⟩] ["A"]).2
    (mkPrice ⟨"A", "1", "5.00"⟩) (by decide)

/-- C9: `create_prices` leaves its offer-id argument unchanged — the
explicit-state version returns the list exactly as given and computes the
same prices — unlike the stock pass, which consumes its working list
destructively, as the concrete run from `["A1"]` to `[]` shows. -/
theorem create_prices_read_only :
    (∀ (f : List Watch) (ids : List String),
      (create_prices_st f ids).2 = ids ∧ (create_prices_st f ids).1 = create_prices f ids) ∧
    create_stocks_go [⟨"A1", ">10", "9"⟩] ["A1"] = some ([⟨"A1", 100⟩], []) := by
  constructor
  · intro f
    induction f with
    | nil => intro ids; exact ⟨rfl, rfl⟩
    | cons w0 ws ih =>
      intro ids
      by_cases hmem : w0.code ∈ ids <;>
        simp [create_prices_st, create_prices, hmem, ih ids]
  · rfl

/-- C10: in `main`, `create_prices` receives the offer-id list already
consumed by `create_stocks`; on a duplicate-free catalog every feed code
still in the catalog was erased during the stock pass, so the price list
is empty and chunking it yields no batch to submit. -/
theorem main_price_batch_empty (f : List Watch) (c : List String) (s1 : List Stock)
    (w : List String) (hnd : c.Nodup) (h : create_stocks_go f c = some (s1, w)) :
    create_prices f w = [] ∧ divideZ (create_prices f w) 900 = Except.ok [] := by
  have hp : create_prices f w = [] :=
    create_prices_eq_nil f w (fun x hx => create_stocks_go_feed_disjoint f c s1 w hnd h x hx)
  refine ⟨hp, ?_⟩
  rw [hp]
  rfl

/-- Witness for C10 at the feed `[{"Код": "A", "Количество": ">10"}]` and
catalog `["A", "B"]`: the stock pass leaves `["B"]`, and the price pass
over it is empty. -/
theorem main_price_batch_empty_witness :
    create_prices [⟨"A", ">10", "9"⟩] ["B"] = [] ∧
    divideZ (create_prices [⟨"A", ">10", "9"⟩] ["B"]) 900 = Except.ok [] :=
  main_price_batch_empty [⟨"A", ">10", "9"⟩] ["A", "B"] [⟨"A", 100⟩] ["B"]
    (by decide) (by decide)

end Seller
